import Mathlib

/-!
Shallow embedding of the numeric helper functions of `utils.py`
(Deep-Reinforcement-Stock-Trading): the sigmoid price-difference state
encoder, the portfolio / combined state encoders, the custom Sharpe
ratio, and maximum drawdown.  Python floats are modelled as exact
numbers: the drawdown and argmax machinery (pure ordered-field
arithmetic) over `ℚ` so that concrete instances are decidable, and the
encoder / Sharpe functions (which use `exp`, `log`, `sqrt` and a real
power) over `ℝ`.  Fallible operations (list indexing, `stock_prices[0]`
on an empty list, the logarithm's domain check) are modelled with
`Option`.
-/

/-! ### Maximum drawdown (`utils.py`, `maximum_drawdown`) over `ℚ` -/

/-- Tail worker for `np.maximum.accumulate`: `cur` is the running maximum of
the elements already consumed. -/
def runningMaxAux (cur : ℚ) : List ℚ → List ℚ
  | [] => []
  | x :: xs => max cur x :: runningMaxAux (max cur x) xs

/-- Model of `np.maximum.accumulate`: the list of prefix maxima. -/
def runningMax : List ℚ → List ℚ
  | [] => []
  | x :: xs => x :: runningMaxAux x xs

/-- Tail worker for `np.argmax`: `best` is the largest value seen so far,
`bestIdx` its (first) position, and `i` the position of the next element.
The strict comparison `best < y` keeps the earliest position on ties,
exactly as `np.argmax` does. -/
def argmaxGo (best : ℚ) (bestIdx i : ℕ) : List ℚ → ℕ
  | [] => bestIdx
  | y :: ys => if best < y then argmaxGo y i (i + 1) ys else argmaxGo best bestIdx (i + 1) ys

/-- Model of `np.argmax`: index of the first occurrence of the maximum.
`np.argmax` raises on an empty array; all uses below are on non-empty
lists, where the `[]` branch is unreachable. -/
def argmaxList : List ℚ → ℕ
  | [] => 0
  | x :: xs => argmaxGo x 0 1 xs

/-- The elementwise difference `np.maximum.accumulate(portfolio_values) -
portfolio_values` from `maximum_drawdown`. -/
def drawdownSeq (vs : List ℚ) : List ℚ :=
  List.zipWith (fun a b => a - b) (runningMax vs) vs

/-- Model of `maximum_drawdown` (`utils.py` lines 70-75): `e` is
`np.argmax` of the running-max minus values sequence; if `e = 0` return
`0`, otherwise divide by the (first) maximum over the strict prefix
`portfolio_values[:e]`. -/
def maximum_drawdown (portfolio_values : List ℚ) : ℚ :=
  let e := argmaxList (drawdownSeq portfolio_values)
  if e = 0 then 0
  else
    let b := argmaxList (portfolio_values.take e)
    (portfolio_values.getD e 0 - portfolio_values.getD b 0) / portfolio_values.getD b 0

/-- Specification-side predicate: `j` is the first index of the maximum of
`l` (every entry is `≤ l[j]`, and every entry strictly before `j` is
`< l[j]`). -/
def isFirstArgmax (l : List ℚ) (j : ℕ) : Prop :=
  j < l.length ∧ (∀ k, k < l.length → l.getD k 0 ≤ l.getD j 0) ∧
    ∀ k, k < j → l.getD k 0 < l.getD j 0

/-! ### State encoders and Sharpe ratio over `ℝ` -/

noncomputable section

/-- Model of `sigmoid` (`utils.py` lines 7-8). -/
def sigmoid (x : ℝ) : ℝ := 1 / (1 + Real.exp (-x))

/-- The `period` construction shared by `generate_price_state` and
`generate_combined_state` (`utils.py` lines 31-32 and 45-46):
`stock_prices[start:t+1]` when `start = t - n >= 0`, otherwise
`-start * [stock_prices[0]] + stock_prices[0:t+1]`.  The padding branch
reads `stock_prices[0]`, which fails on an empty list, hence the
`Option`. -/
def periodOf (stock_prices : List ℝ) (t n : ℕ) : Option (List ℝ) :=
  if n ≤ t then some ((stock_prices.drop (t - n)).take (n + 1))
  else stock_prices.head?.map fun p0 => List.replicate (n - t) p0 ++ stock_prices.take (t + 1)

/-- The `for i in range(n): diff.append(sigmoid(period[i+1] - period[i]))`
loop (`utils.py` lines 33-35 and 47-49), with the list accesses checked:
`diffsFrom period i k` produces the entries for loop counters
`i, i+1, ..., i+k-1`, and is `none` as soon as an index is out of
bounds (the Python `IndexError`). -/
def diffsFrom (period : List ℝ) : ℕ → ℕ → Option (List ℝ)
  | _, 0 => some []
  | i, k + 1 => do
    let a ← period[i]?
    let b ← period[i + 1]?
    let rest ← diffsFrom period (i + 1) k
    pure (sigmoid (b - a) :: rest)

/-- Model of `generate_price_state` (`utils.py` lines 24-36).  The returned
`np.array([diff])` is a single row; we model that row. -/
def generate_price_state (stock_prices : List ℝ) (t n : ℕ) : Option (List ℝ) :=
  (periodOf stock_prices t n).bind fun period => diffsFrom period 0 n

/-- Domain-checked model of `np.log`: the logarithm is defined (as a finite
real) only for strictly positive arguments; a non-positive argument is a
domain error, modelled as `none`. -/
def safeLog (x : ℝ) : Option ℝ :=
  if 0 < x then some (Real.log x) else none

/-- Model of `generate_portfolio_state` (`utils.py` lines 39-41), with the
logarithm's domain checked so that the "domain error" safety claim is
expressible: the result is `some` row exactly when all three logarithm
arguments are strictly positive. -/
def generate_portfolio_state (stock_price balance num_holding : ℝ) : Option (List ℝ) := do
  let a ← safeLog stock_price
  let b ← safeLog balance
  let c ← safeLog (num_holding + 1e-6)
  pure [a, b, c]

/-- Model of `generate_combined_state` (`utils.py` lines 44-51): the same
period slicing and sigmoid difference loop as `generate_price_state`,
then `np.log(stock_prices[t])`, `np.log(balance)` and
`np.log(num_holding + 1e-6)` appended.  Here `np.log` is modelled by the
total `Real.log` (numpy's `log` returns a value without raising even on
non-positive input); the list access `stock_prices[t]` is checked. -/
def generate_combined_state (t n : ℕ) (stock_prices : List ℝ) (balance num_holding : ℝ) :
    Option (List ℝ) := do
  let period ← periodOf stock_prices t n
  let diff ← diffsFrom period 0 n
  let pt ← stock_prices[t]?
  pure (diff ++ [Real.log pt, Real.log balance, Real.log (num_holding + 1e-6)])

/-- Specification-side window of `generate_price_state` at position
`i ∈ [0, n]`: the price at series index `t - n + i`, with negative indices
replaced by the first price (the left-padding policy). -/
def paddedWindow (stock_prices : List ℝ) (t n i : ℕ) : ℝ :=
  if t + i < n then stock_prices.getD 0 0 else stock_prices.getD (t + i - n) 0

/-- Model of `np.mean` on a 1-d array. -/
def npMean (l : List ℝ) : ℝ := l.sum / l.length

/-- Model of `np.std` on a 1-d array: the square root of the population
variance (`ddof = 0`). -/
def npStd (l : List ℝ) : ℝ :=
  Real.sqrt (npMean (l.map fun x => (x - npMean l) ^ 2))

/-- The excess returns `np.array(return_rates) - risk_free_rate`. -/
def excessReturns (risk_free_rate : ℝ) (return_rates : List ℝ) : List ℝ :=
  return_rates.map fun x => x - risk_free_rate

/-- Model of `daily_treasury_bond_return_rate` (`utils.py` lines 54-56). -/
def daily_treasury_bond_return_rate : ℝ :=
  (1 + 2.75 / 100) ^ ((1 : ℝ) / 365) - 1

/-- Body of `sharpe_ratio_custom` (`utils.py` lines 60-67) with the
risk-free rate abstracted, so that the all-equal-returns property can be
stated for an arbitrary rate. -/
def sharpeRatioWithRate (risk_free_rate : ℝ) (return_rates : List ℝ) : ℝ :=
  let numerator := npMean (excessReturns risk_free_rate return_rates)
  let denominator := npStd (excessReturns risk_free_rate return_rates)
  if denominator = 0 ∨ numerator = 0 then 0 else numerator / denominator

/-- Model of `sharpe_ratio_custom`: the body at the treasury-bond daily
rate. -/
def sharpe_ratio_custom (return_rates : List ℝ) : ℝ :=
  sharpeRatioWithRate daily_treasury_bond_return_rate return_rates

/-- The replacement operation of claim C4: the first `k` entries of `l`
overwritten with `x` (all other entries unchanged). -/
def replaceFirst (k : ℕ) (x : ℝ) (l : List ℝ) : List ℝ :=
  List.replicate (min k l.length) x ++ l.drop k

end

/-! ### Sigmoid bounds -/

theorem sigmoid_pos (x : ℝ) : 0 < sigmoid x := by
  unfold sigmoid
  positivity

theorem sigmoid_lt_one (x : ℝ) : sigmoid x < 1 := by
  unfold sigmoid
  rw [div_lt_one (by positivity)]
  linarith [Real.exp_pos (-x)]

theorem sigmoid_strictMono : StrictMono sigmoid := by
  intro a b hab
  unfold sigmoid
  have h1 : Real.exp (-b) < Real.exp (-a) := Real.exp_lt_exp.mpr (by linarith)
  have h2 : (0 : ℝ) < 1 + Real.exp (-b) := by positivity
  exact one_div_lt_one_div_of_lt h2 (by linarith)

/-! ### Period construction and the difference loop -/

theorem periodOf_eq_some (stock_prices : List ℝ) (t n : ℕ)
    (ht : t < stock_prices.length) :
    ∃ period, periodOf stock_prices t n = some period ∧
      period.length = n + 1 ∧
      ∀ i, i ≤ n → period.getD i 0 = paddedWindow stock_prices t n i := by
  unfold periodOf
  by_cases h : n ≤ t
  · rw [if_pos h]
    refine ⟨_, rfl, ?_, ?_⟩
    · rw [List.length_take, List.length_drop]
      omega
    · intro i hi
      rw [List.getD_eq_getElem?_getD, List.getElem?_take_of_lt (by omega),
        List.getElem?_drop]
      unfold paddedWindow
      rw [if_neg (by omega), List.getD_eq_getElem?_getD]
      have : t - n + i = t + i - n := by omega
      rw [this]
  · rw [if_neg h]
    obtain ⟨p0, l, rfl⟩ : ∃ p0 l, stock_prices = p0 :: l := by
      cases stock_prices with
      | nil => simp at ht
      | cons a l => exact ⟨a, l, rfl⟩
    refine ⟨_, rfl, ?_, ?_⟩
    · rw [List.length_append, List.length_replicate, List.length_take]
      rw [Nat.min_eq_left ht]
      omega
    · intro i hi
      rw [List.getD_eq_getElem?_getD]
      by_cases hpad : i < n - t
      · rw [List.getElem?_append_left (by simpa using hpad),
          List.getElem?_replicate_of_lt hpad]
        unfold paddedWindow
        rw [if_pos (by omega)]
        rfl
      · rw [List.getElem?_append_right (by simpa using hpad),
          List.length_replicate, List.getElem?_take_of_lt (by omega)]
        unfold paddedWindow
        rw [if_neg (by omega), List.getD_eq_getElem?_getD]
        have : i - (n - t) = t + i - n := by omega
        rw [this]

theorem diffsFrom_eq_some (period : List ℝ) :
    ∀ k i, i + k + 1 ≤ period.length ∨ k = 0 →
      ∃ v, diffsFrom period i k = some v ∧ v.length = k ∧
        ∀ j, j < k →
          v.getD j 0 = sigmoid (period.getD (i + j + 1) 0 - period.getD (i + j) 0) := by
  intro k
  induction k with
  | zero =>
    intro i _
    exact ⟨[], rfl, rfl, fun j hj => absurd hj (by omega)⟩
  | succ k ih =>
    intro i h
    have hlen : i + k + 2 ≤ period.length := by omega
    have hi : i < period.length := by omega
    have hi1 : i + 1 < period.length := by omega
    obtain ⟨rest, hrest, hrlen, hrval⟩ := ih (i + 1) (Or.inl (by omega))
    refine ⟨sigmoid (period[i + 1] - period[i]) :: rest, ?_, by simp [hrlen], ?_⟩
    · show (period[i]?.bind fun a => period[i + 1]?.bind fun b =>
        (diffsFrom period (i + 1) k).bind fun rest => some (sigmoid (b - a) :: rest)) = _
      rw [List.getElem?_eq_getElem hi, List.getElem?_eq_getElem hi1, hrest]
      rfl
    · intro j hj
      cases j with
      | zero =>
        simp only [List.getD_cons_zero, Nat.add_zero, List.getD_eq_getElem?_getD,
          List.getElem?_eq_getElem hi, List.getElem?_eq_getElem hi1, Option.getD_some,
          List.getElem?_cons_zero]
      | succ j =>
        simp only [List.getD_cons_succ]
        rw [hrval j (by omega)]
        have h1 : i + 1 + j + 1 = i + (j + 1) + 1 := by omega
        have h2 : i + 1 + j = i + (j + 1) := by omega
        rw [h1, h2]

theorem diffsFrom_eq_none (period : List ℝ) :
    ∀ k i, 1 ≤ k → period.length ≤ i + k → diffsFrom period i k = none := by
  intro k
  induction k with
  | zero => intro i h; omega
  | succ k ih =>
    intro i _ hlen
    show (period[i]?.bind fun a => period[i + 1]?.bind fun b =>
      (diffsFrom period (i + 1) k).bind fun rest => some (sigmoid (b - a) :: rest)) = none
    by_cases hi : period.length ≤ i
    · rw [List.getElem?_eq_none hi]
      rfl
    · rw [List.getElem?_eq_getElem (by omega)]
      by_cases hi1 : period.length ≤ i + 1
      · rw [List.getElem?_eq_none hi1]
        rfl
      · rw [List.getElem?_eq_getElem (by omega), ih (i + 1) (by omega) (by omega)]
        rfl

/-- C1: for a non-empty price series, an index `t` with
`0 ≤ t < length stock_prices` and any window length `n`,
`generate_price_state` returns a row of exactly `n` features, the `i`-th
feature being the sigmoid of the `i`-th adjacent difference of the
window of `n + 1` prices at series indices `[t-n, t]`, where an index
below `0` is replaced by the first price `stock_prices[0]`
(left-padding). -/
theorem price_state_window_spec (stock_prices : List ℝ) (t n : ℕ)
    (ht : t < stock_prices.length) :
    ∃ v, generate_price_state stock_prices t n = some v ∧ v.length = n ∧
      ∀ i, i < n →
        v.getD i 0 =
          sigmoid (paddedWindow stock_prices t n (i + 1) - paddedWindow stock_prices t n i) := by
  obtain ⟨period, hper, hplen, hpval⟩ := periodOf_eq_some stock_prices t n ht
  obtain ⟨v, hv, hvlen, hvval⟩ := diffsFrom_eq_some period n 0 (Or.inl (by omega))
  refine ⟨v, ?_, hvlen, ?_⟩
  · unfold generate_price_state
    rw [hper]
    exact hv
  · intro i hi
    rw [hvval i hi]
    simp only [Nat.zero_add]
    rw [hpval (i + 1) (by omega), hpval i (by omega)]

/-- C5: for any price series, window length `n` and valid index `t`, the
state vector of `generate_price_state` has exactly `n` elements and every
element lies strictly between `0` and `1`. -/
theorem price_state_length_bounds (stock_prices : List ℝ) (t n : ℕ)
    (ht : t < stock_prices.length) :
    ∃ v, generate_price_state stock_prices t n = some v ∧ v.length = n ∧
      ∀ x ∈ v, 0 < x ∧ x < 1 := by
  obtain ⟨period, hper, hplen, hpval⟩ := periodOf_eq_some stock_prices t n ht
  obtain ⟨v, hv, hvlen, hvval⟩ := diffsFrom_eq_some period n 0 (Or.inl (by omega))
  refine ⟨v, ?_, hvlen, ?_⟩
  · unfold generate_price_state
    rw [hper]
    exact hv
  · intro x hx
    obtain ⟨i, hil, hig⟩ := List.mem_iff_getElem.mp hx
    have hx' : x = v.getD i 0 := by
      rw [List.getD_eq_getElem?_getD, List.getElem?_eq_getElem hil, hig]
      rfl
    rw [hx', hvval i (by omega)]
    exact ⟨sigmoid_pos _, sigmoid_lt_one _⟩

theorem price_state_window_spec_witness :
    (0 : ℕ) < ([(1 : ℝ), 2] : List ℝ).length ∧
      ∃ v, generate_price_state [(1 : ℝ), 2] 0 2 = some v ∧ v.length = 2 ∧
        ∀ i, i < 2 →
          v.getD i 0 =
            sigmoid (paddedWindow [(1 : ℝ), 2] 0 2 (i + 1) - paddedWindow [(1 : ℝ), 2] 0 2 i) :=
  ⟨by decide, price_state_window_spec [(1 : ℝ), 2] 0 2 (by decide)⟩

theorem price_state_length_bounds_witness :
    ∃ v, generate_price_state [(3 : ℝ), 7, 5] 2 4 = some v ∧ v.length = 4 ∧
      ∀ x ∈ v, 0 < x ∧ x < 1 :=
  price_state_length_bounds [(3 : ℝ), 7, 5] 2 4 (by decide)

/-- C10: when `0 ≤ t < length stock_prices`, the period of
`generate_price_state` has exactly `n + 1` elements and every list access
succeeds, so the function returns a value; when `t ≥ length stock_prices`
(on a non-empty series) and `n ≥ 1`, the period has fewer than `n + 1`
elements and the difference loop's access goes out of bounds, so the
function fails — non-emptiness, `n ≥ 0` and `t ≥ 0` alone do not make it
total. -/
theorem price_state_bounds_precondition (stock_prices : List ℝ) (t n : ℕ) :
    (t < stock_prices.length →
      ∃ period, periodOf stock_prices t n = some period ∧ period.length = n + 1 ∧
        (generate_price_state stock_prices t n).isSome = true) ∧
    (stock_prices ≠ [] → stock_prices.length ≤ t → 1 ≤ n →
      ∃ period, periodOf stock_prices t n = some period ∧ period.length < n + 1 ∧
        generate_price_state stock_prices t n = none) := by
  constructor
  · intro ht
    obtain ⟨period, hper, hplen, _⟩ := periodOf_eq_some stock_prices t n ht
    obtain ⟨v, hv, _, _⟩ := diffsFrom_eq_some period n 0 (Or.inl (by omega))
    refine ⟨period, hper, hplen, ?_⟩
    unfold generate_price_state
    rw [hper, Option.some_bind, hv]
    rfl
  · intro hne hlen hn
    have hshort : ∃ period, periodOf stock_prices t n = some period ∧ period.length ≤ n := by
      unfold periodOf
      by_cases h : n ≤ t
      · rw [if_pos h]
        refine ⟨_, rfl, ?_⟩
        rw [List.length_take, List.length_drop]
        omega
      · rw [if_neg h]
        cases stock_prices with
        | nil => exact absurd rfl hne
        | cons p0 l =>
          simp only [List.head?_cons, Option.map_some']
          refine ⟨_, rfl, ?_⟩
          rw [List.length_append, List.length_replicate, List.length_take]
          simp only [List.length_cons] at hlen ⊢
          omega
    obtain ⟨period, hper, hple⟩ := hshort
    refine ⟨period, hper, by omega, ?_⟩
    unfold generate_price_state
    rw [hper, Option.some_bind]
    exact diffsFrom_eq_none period n 0 hn (by omega)

theorem price_state_bounds_precondition_witness :
    ((generate_price_state [(1 : ℝ), 2, 3] 1 5).isSome = true) ∧
      generate_price_state [(1 : ℝ), 2] 5 3 = none := by
  constructor
  · obtain ⟨p, _, _, hs⟩ :=
      (price_state_bounds_precondition [(1 : ℝ), 2, 3] 1 5).1 (by decide)
    exact hs
  · obtain ⟨p, _, _, hn⟩ :=
      (price_state_bounds_precondition [(1 : ℝ), 2] 5 3).2 (by decide) (by decide) (by decide)
    exact hn

/-- C6: for a valid index `t`, positive balance and non-negative holding,
`generate_combined_state` returns a single row of exactly `n + 3`
features: the `n` sigmoid price-difference features of
`generate_price_state` (same windowing and padding), followed in order by
`log stock_prices[t]`, `log balance` and `log (num_holding + 1e-6)`. -/
theorem combined_state_spec (stock_prices : List ℝ) (balance num_holding : ℝ) (t n : ℕ)
    (ht : t < stock_prices.length) (_hb : 0 < balance) (_hh : 0 ≤ num_holding) :
    ∃ d, generate_price_state stock_prices t n = some d ∧ d.length = n ∧
      generate_combined_state t n stock_prices balance num_holding =
        some (d ++ [Real.log (stock_prices.getD t 0), Real.log balance,
          Real.log (num_holding + 1e-6)]) ∧
      (d ++ [Real.log (stock_prices.getD t 0), Real.log balance,
        Real.log (num_holding + 1e-6)]).length = n + 3 := by
  obtain ⟨period, hper, hplen, _⟩ := periodOf_eq_some stock_prices t n ht
  obtain ⟨v, hv, hvlen, _⟩ := diffsFrom_eq_some period n 0 (Or.inl (by omega))
  refine ⟨v, ?_, hvlen, ?_, ?_⟩
  · unfold generate_price_state
    rw [hper, Option.some_bind]
    exact hv
  · unfold generate_combined_state
    rw [hper]
    show ((diffsFrom period 0 n).bind fun diff => stock_prices[t]?.bind fun pt =>
      some (diff ++ [Real.log pt, Real.log balance, Real.log (num_holding + 1e-6)])) = _
    rw [hv, Option.some_bind, List.getElem?_eq_getElem ht, Option.some_bind,
      List.getD_eq_getElem?_getD, List.getElem?_eq_getElem ht, Option.getD_some]
  · rw [List.length_append, hvlen]
    rfl

theorem combined_state_spec_witness :
    ∃ d, generate_price_state [(2 : ℝ), 4] 1 1 = some d ∧ d.length = 1 ∧
      generate_combined_state 1 1 [(2 : ℝ), 4] 10 0 =
        some (d ++ [Real.log (([(2 : ℝ), 4] : List ℝ).getD 1 0), Real.log 10,
          Real.log (0 + 1e-6)]) ∧
      (d ++ [Real.log (([(2 : ℝ), 4] : List ℝ).getD 1 0), Real.log 10,
        Real.log (0 + 1e-6)]).length = 1 + 3 :=
  combined_state_spec [(2 : ℝ), 4] 10 0 1 1 (by decide) (by norm_num) (by norm_num)

/-- C9: with a positive stock price and balance and `num_holding = 0`,
`generate_portfolio_state` is well-defined and raises no logarithm domain
error: its third feature is the logarithm of `0 + 1e-6`, whose argument
is strictly positive, so the `none` (undefined-log) branch is
unreachable. -/
theorem portfolio_state_no_domain_error (stock_price balance : ℝ)
    (hp : 0 < stock_price) (hb : 0 < balance) :
    generate_portfolio_state stock_price balance 0 =
      some [Real.log stock_price, Real.log balance, Real.log (0 + 1e-6)] := by
  unfold generate_portfolio_state safeLog
  rw [if_pos hp, if_pos hb, if_pos (by norm_num : (0 : ℝ) < 0 + 1e-6)]
  rfl

theorem portfolio_state_no_domain_error_witness :
    generate_portfolio_state 1 1 0 =
      some [Real.log 1, Real.log 1, Real.log (0 + 1e-6)] :=
  portfolio_state_no_domain_error 1 1 (by norm_num) (by norm_num)

/-- C4 as stated is false: encoding `[1,2,3,4]` at `t = 1` with window
`n = 3` differs from encoding the series whose first `n - t = 2` entries
are replaced by `price[0] = 1` (the replaced entry at index `1` is part
of the slice `stock_prices[0:t+1]` that the padding branch appends, so
the windows differ). -/
theorem generate_price_state_replace_counterexample :
    generate_price_state [(1 : ℝ), 2, 3, 4] 1 3 ≠
      generate_price_state (replaceFirst 2 1 [(1 : ℝ), 2, 3, 4]) 1 3 := by
  have h1 : generate_price_state [(1 : ℝ), 2, 3, 4] 1 3 =
      some [sigmoid 0, sigmoid 0, sigmoid 1] := by
    unfold generate_price_state
    have hp : periodOf [(1 : ℝ), 2, 3, 4] 1 3 = some [1, 1, 1, 2] := rfl
    rw [hp, Option.some_bind]
    have hd : diffsFrom [(1 : ℝ), 1, 1, 2] 0 3 =
        some [sigmoid (1 - 1), sigmoid (1 - 1), sigmoid (2 - 1)] := rfl
    rw [hd]
    norm_num
  have h2 : generate_price_state (replaceFirst 2 1 [(1 : ℝ), 2, 3, 4]) 1 3 =
      some [sigmoid 0, sigmoid 0, sigmoid 0] := by
    have hrep : replaceFirst 2 1 [(1 : ℝ), 2, 3, 4] = [1, 1, 3, 4] := rfl
    rw [hrep]
    unfold generate_price_state
    have hp : periodOf [(1 : ℝ), 1, 3, 4] 1 3 = some [1, 1, 1, 1] := rfl
    rw [hp, Option.some_bind]
    have hd : diffsFrom [(1 : ℝ), 1, 1, 1] 0 3 =
        some [sigmoid (1 - 1), sigmoid (1 - 1), sigmoid (1 - 1)] := rfl
    rw [hd]
    norm_num
  rw [h1, h2]
  intro heq
  simp only [Option.some.injEq, List.cons.injEq, and_true] at heq
  have hlt : sigmoid 0 < sigmoid 1 := sigmoid_strictMono (by norm_num)
  linarith [heq.2.2]

/-- C4 amended: for `0 ≤ t < n ≤ length stock_prices`, encoding at `t`
equals encoding at index `n` of the series obtained by prepending
`n - t` copies of the first price `stock_prices[0]` to the series (the
left-padding is equivalent to materializing the pad in front of the
history, not to overwriting its first `n - t` entries). -/
theorem padding_prepend_equiv (stock_prices : List ℝ) (t n : ℕ)
    (htn : t < n) (hn : n ≤ stock_prices.length) :
    generate_price_state stock_prices t n =
      generate_price_state
        (List.replicate (n - t) (stock_prices.getD 0 0) ++ stock_prices) n n := by
  obtain ⟨p0, l, rfl⟩ : ∃ p0 l, stock_prices = p0 :: l := by
    cases stock_prices with
    | nil => simp only [List.length_nil] at hn; omega
    | cons a l => exact ⟨a, l, rfl⟩
  simp only [List.getD_cons_zero]
  unfold generate_price_state
  have h1 : periodOf (p0 :: l) t n =
      some (List.replicate (n - t) p0 ++ (p0 :: l).take (t + 1)) := by
    unfold periodOf
    rw [if_neg (by omega)]
    rfl
  have h2 : periodOf (List.replicate (n - t) p0 ++ (p0 :: l)) n n =
      some (List.replicate (n - t) p0 ++ (p0 :: l).take (t + 1)) := by
    unfold periodOf
    rw [if_pos (le_refl n), Nat.sub_self, List.drop_zero]
    congr 1
    rw [List.take_append_eq_append_take]
    congr 1
    · exact List.take_of_length_le (by rw [List.length_replicate]; omega)
    · congr 1
      rw [List.length_replicate]
      omega
  rw [h1, h2]

theorem padding_prepend_equiv_witness :
    generate_price_state [(1 : ℝ), 2] 0 2 =
      generate_price_state (List.replicate 2 (1 : ℝ) ++ [(1 : ℝ), 2]) 2 2 :=
  padding_prepend_equiv [(1 : ℝ), 2] 0 2 (by decide) (by decide)

/-! ### Argmax and running-maximum machinery -/

theorem le_foldl_max (l : List ℚ) : ∀ b : ℚ, b ≤ l.foldl max b := by
  induction l with
  | nil => intro b; exact le_refl b
  | cons x xs ih =>
    intro b
    rw [List.foldl_cons]
    exact le_trans (le_max_left b x) (ih (max b x))

theorem getD_le_foldl_max (l : List ℚ) : ∀ (b : ℚ) (j : ℕ), j < l.length →
    l.getD j 0 ≤ l.foldl max b := by
  induction l with
  | nil => intro b j hj; simp at hj
  | cons x xs ih =>
    intro b j hj
    cases j with
    | zero =>
      rw [List.getD_cons_zero, List.foldl_cons]
      exact le_trans (le_max_right b x) (le_foldl_max xs (max b x))
    | succ j =>
      rw [List.getD_cons_succ, List.foldl_cons]
      exact ih (max b x) j (by simpa using hj)

theorem foldl_max_cases (l : List ℚ) : ∀ b : ℚ,
    l.foldl max b = b ∨ ∃ j, j < l.length ∧ l.foldl max b = l.getD j 0 := by
  induction l with
  | nil => intro b; exact Or.inl rfl
  | cons x xs ih =>
    intro b
    rcases ih (max b x) with h | ⟨j, hj, h⟩
    · rcases le_total x b with hxb | hbx
      · left
        rw [List.foldl_cons, h, max_eq_left hxb]
      · right
        refine ⟨0, by simp, ?_⟩
        rw [List.foldl_cons, h, max_eq_right hbx, List.getD_cons_zero]
    · right
      refine ⟨j + 1, by simpa using hj, ?_⟩
      rw [List.foldl_cons, h, List.getD_cons_succ]

theorem argmaxGo_spec (ys : List ℚ) : ∀ (best : ℚ) (bi i : ℕ),
    (argmaxGo best bi i ys = bi ∧ ys.foldl max best = best) ∨
    (∃ j, j < ys.length ∧ argmaxGo best bi i ys = i + j ∧
      ys.getD j 0 = ys.foldl max best ∧ best < ys.getD j 0 ∧
      ∀ k, k < j → ys.getD k 0 < ys.getD j 0) := by
  induction ys with
  | nil => intro best bi i; exact Or.inl ⟨rfl, rfl⟩
  | cons y ys ih =>
    intro best bi i
    by_cases hby : best < y
    · have hfold : (y :: ys).foldl max best = ys.foldl max y := by
        rw [List.foldl_cons, max_eq_right (le_of_lt hby)]
      rcases ih y i (i + 1) with ⟨hr, hf⟩ | ⟨j, hj, hr, hv, hbv, hfirst⟩
      · right
        refine ⟨0, by simp, ?_, ?_, ?_, fun k hk => absurd hk (by omega)⟩
        · show (if best < y then argmaxGo y i (i + 1) ys else argmaxGo best bi (i + 1) ys)
            = i + 0
          rw [if_pos hby, hr, Nat.add_zero]
        · rw [List.getD_cons_zero, hfold, hf]
        · rw [List.getD_cons_zero]
          exact hby
      · right
        refine ⟨j + 1, by simpa using hj, ?_, ?_, ?_, ?_⟩
        · show (if best < y then argmaxGo y i (i + 1) ys else argmaxGo best bi (i + 1) ys)
            = i + (j + 1)
          rw [if_pos hby, hr]
          omega
        · rw [List.getD_cons_succ, hfold, hv]
        · rw [List.getD_cons_succ]
          exact lt_trans hby hbv
        · intro k hk
          cases k with
          | zero =>
            rw [List.getD_cons_zero, List.getD_cons_succ]
            exact hbv
          | succ k =>
            rw [List.getD_cons_succ, List.getD_cons_succ]
            exact hfirst k (by omega)
    · have hfold : (y :: ys).foldl max best = ys.foldl max best := by
        rw [List.foldl_cons, max_eq_left (le_of_not_lt hby)]
      rcases ih best bi (i + 1) with ⟨hr, hf⟩ | ⟨j, hj, hr, hv, hbv, hfirst⟩
      · left
        constructor
        · show (if best < y then argmaxGo y i (i + 1) ys else argmaxGo best bi (i + 1) ys)
            = bi
          rw [if_neg hby]
          exact hr
        · rw [hfold]
          exact hf
      · right
        refine ⟨j + 1, by simpa using hj, ?_, ?_, ?_, ?_⟩
        · show (if best < y then argmaxGo y i (i + 1) ys else argmaxGo best bi (i + 1) ys)
            = i + (j + 1)
          rw [if_neg hby, hr]
          omega
        · rw [List.getD_cons_succ, hfold]
          exact hv
        · rw [List.getD_cons_succ]
          exact hbv
        · intro k hk
          cases k with
          | zero =>
            rw [List.getD_cons_zero, List.getD_cons_succ]
            exact lt_of_le_of_lt (le_of_not_lt hby) hbv
          | succ k =>
            rw [List.getD_cons_succ, List.getD_cons_succ]
            exact hfirst k (by omega)

theorem argmaxList_isFirstArgmax (l : List ℚ) (h : l ≠ []) :
    isFirstArgmax l (argmaxList l) := by
  obtain ⟨x, xs, rfl⟩ : ∃ x xs, l = x :: xs := by
    cases l with
    | nil => exact absurd rfl h
    | cons a l => exact ⟨a, l, rfl⟩
  show isFirstArgmax (x :: xs) (argmaxGo x 0 1 xs)
  rcases argmaxGo_spec xs x 0 1 with ⟨hr, hf⟩ | ⟨j, hj, hr, hv, hbv, hfirst⟩
  · rw [hr]
    refine ⟨by simp, ?_, fun k hk => absurd hk (by omega)⟩
    intro k hk
    cases k with
    | zero => exact le_refl _
    | succ k =>
      rw [List.getD_cons_succ, List.getD_cons_zero]
      calc xs.getD k 0 ≤ xs.foldl max x := getD_le_foldl_max xs x k (by simpa using hk)
        _ = x := hf
  · rw [hr]
    have h1j : (1 : ℕ) + j = j + 1 := by omega
    refine ⟨by simp only [List.length_cons]; omega, ?_, ?_⟩
    · intro k hk
      rw [h1j, List.getD_cons_succ]
      cases k with
      | zero =>
        rw [List.getD_cons_zero]
        exact le_of_lt hbv
      | succ k =>
        rw [List.getD_cons_succ, hv]
        exact getD_le_foldl_max xs x k (by simpa using hk)
    · intro k hk
      rw [h1j, List.getD_cons_succ]
      cases k with
      | zero =>
        rw [List.getD_cons_zero]
        exact hbv
      | succ k =>
        rw [List.getD_cons_succ]
        exact hfirst k (by omega)

theorem argmaxList_eq_zero (x : ℚ) (xs : List ℚ)
    (h : ∀ j, j < xs.length → xs.getD j 0 ≤ x) : argmaxList (x :: xs) = 0 := by
  show argmaxGo x 0 1 xs = 0
  rcases argmaxGo_spec xs x 0 1 with ⟨hr, _⟩ | ⟨j, hj, _, _, hbv, _⟩
  · exact hr
  · exact absurd hbv (not_lt.mpr (h j hj))

theorem runningMaxAux_length (l : List ℚ) : ∀ cur : ℚ,
    (runningMaxAux cur l).length = l.length := by
  induction l with
  | nil => intro cur; rfl
  | cons x xs ih =>
    intro cur
    show (max cur x :: runningMaxAux (max cur x) xs).length = (x :: xs).length
    rw [List.length_cons, List.length_cons, ih (max cur x)]

theorem runningMax_length (vs : List ℚ) : (runningMax vs).length = vs.length := by
  cases vs with
  | nil => rfl
  | cons x xs =>
    show (x :: runningMaxAux x xs).length = (x :: xs).length
    rw [List.length_cons, List.length_cons, runningMaxAux_length xs x]

theorem runningMaxAux_getD (l : List ℚ) : ∀ (cur : ℚ) (j : ℕ), j < l.length →
    (runningMaxAux cur l).getD j 0 = (l.take (j + 1)).foldl max cur := by
  induction l with
  | nil => intro cur j hj; simp at hj
  | cons x xs ih =>
    intro cur j hj
    cases j with
    | zero =>
      show (max cur x :: runningMaxAux (max cur x) xs).getD 0 0 = _
      rw [List.getD_cons_zero, List.take_succ_cons, List.take_zero, List.foldl_cons,
        List.foldl_nil]
    | succ j =>
      show (max cur x :: runningMaxAux (max cur x) xs).getD (j + 1) 0 = _
      rw [List.getD_cons_succ, ih (max cur x) j (by simpa using hj),
        List.take_succ_cons, List.foldl_cons]

theorem runningMaxAux_of_chain (l : List ℚ) : ∀ cur : ℚ,
    List.Chain' (· ≤ ·) (cur :: l) → runningMaxAux cur l = l := by
  induction l with
  | nil => intro cur _; rfl
  | cons x xs ih =>
    intro cur hch
    obtain ⟨hcx, hch'⟩ := List.chain'_cons.mp hch
    show max cur x :: runningMaxAux (max cur x) xs = x :: xs
    rw [max_eq_right hcx, ih x hch']

theorem runningMax_of_chain (vs : List ℚ) (h : List.Chain' (· ≤ ·) vs) :
    runningMax vs = vs := by
  cases vs with
  | nil => rfl
  | cons x xs =>
    show x :: runningMaxAux x xs = x :: xs
    rw [runningMaxAux_of_chain xs x h]

theorem zipWith_sub_self (l : List ℚ) :
    List.zipWith (fun a b => a - b) l l = List.replicate l.length 0 := by
  induction l with
  | nil => rfl
  | cons x xs ih =>
    rw [List.zipWith_cons_cons, ih, sub_self, List.length_cons, List.replicate_succ]

theorem drawdownSeq_length (vs : List ℚ) : (drawdownSeq vs).length = vs.length := by
  unfold drawdownSeq
  have h := runningMax_length vs
  revert h
  generalize runningMax vs = rm
  intro h
  induction vs generalizing rm with
  | nil =>
    cases rm with
    | nil => rfl
    | cons a l => simp at h
  | cons x xs ih =>
    cases rm with
    | nil => simp at h
    | cons a l =>
      rw [List.zipWith_cons_cons, List.length_cons, List.length_cons]
      rw [ih l (by simpa using h)]

theorem drawdownSeq_getD (vs : List ℚ) (k : ℕ) (hk : k < vs.length) :
    (drawdownSeq vs).getD k 0 = (runningMax vs).getD k 0 - vs.getD k 0 := by
  unfold drawdownSeq
  rw [List.getD_eq_getElem?_getD, List.getElem?_zipWith,
    List.getElem?_eq_getElem (by rw [runningMax_length]; exact hk),
    List.getElem?_eq_getElem hk]
  rw [List.getD_eq_getElem?_getD, List.getD_eq_getElem?_getD,
    List.getElem?_eq_getElem (by rw [runningMax_length]; exact hk),
    List.getElem?_eq_getElem hk]
  rfl

/-- C7: on a strictly increasing non-empty portfolio-value sequence,
`maximum_drawdown` returns `0` (the running maximum never exceeds the
current value, so the argmax of the difference sequence is `0`). -/
theorem maximum_drawdown_monotone (vs : List ℚ) (hne : vs ≠ [])
    (hmono : List.Chain' (· < ·) vs) : maximum_drawdown vs = 0 := by
  have hch : List.Chain' (· ≤ ·) vs := hmono.imp fun _ _ h => le_of_lt h
  have he : argmaxList (drawdownSeq vs) = 0 := by
    unfold drawdownSeq
    rw [runningMax_of_chain vs hch, zipWith_sub_self]
    cases vs with
    | nil => rfl
    | cons x xs =>
      rw [List.length_cons, List.replicate_succ]
      apply argmaxList_eq_zero
      intro j hj
      rw [List.getD_eq_getElem?_getD, List.getElem?_replicate_of_lt (by simpa using hj),
        Option.getD_some]
  simp only [maximum_drawdown]
  rw [if_pos he]

theorem maximum_drawdown_monotone_witness :
    maximum_drawdown [(100 : ℚ), 110, 120, 130] = 0 :=
  maximum_drawdown_monotone [(100 : ℚ), 110, 120, 130] (by decide)
    (by norm_num [List.chain'_cons])

theorem runningMax_getD_succ (v0 : ℚ) (rest : List ℚ) (j : ℕ) (hj : j < rest.length) :
    (runningMax (v0 :: rest)).getD (j + 1) 0 =
      max ((rest.take j).foldl max v0) (rest.getD j 0) := by
  show (v0 :: runningMaxAux v0 rest).getD (j + 1) 0 = _
  rw [List.getD_cons_succ, runningMaxAux_getD rest v0 j hj, List.take_succ,
    List.getElem?_eq_getElem hj, Option.toList_some, List.foldl_append, List.foldl_cons,
    List.foldl_nil, List.getD_eq_getElem?_getD, List.getElem?_eq_getElem hj,
    Option.getD_some]

/-- C3: `maximum_drawdown` selects `e` as the first index maximizing
`runningMax(values)[i] - values[i]`; if `e = 0` it returns `0`, otherwise
with `b` the first index of the maximum among the values strictly before
`e` it returns `(values[e] - values[b]) / values[b]`; in particular on
`[100, 150, 50]` it returns `(50 - 150) / 150`. -/
theorem maximum_drawdown_spec (vs : List ℚ) (hne : vs ≠ []) :
    (isFirstArgmax (drawdownSeq vs) (argmaxList (drawdownSeq vs)) ∧
      (argmaxList (drawdownSeq vs) = 0 → maximum_drawdown vs = 0) ∧
      (argmaxList (drawdownSeq vs) ≠ 0 →
        isFirstArgmax (vs.take (argmaxList (drawdownSeq vs)))
          (argmaxList (vs.take (argmaxList (drawdownSeq vs)))) ∧
        maximum_drawdown vs =
          (vs.getD (argmaxList (drawdownSeq vs)) 0 -
              vs.getD (argmaxList (vs.take (argmaxList (drawdownSeq vs)))) 0) /
            vs.getD (argmaxList (vs.take (argmaxList (drawdownSeq vs)))) 0)) ∧
    maximum_drawdown [(100 : ℚ), 150, 50] = (50 - 150) / 150 := by
  have hd_ne : drawdownSeq vs ≠ [] := by
    apply List.ne_nil_of_length_pos
    rw [drawdownSeq_length]
    exact List.length_pos.mpr hne
  refine ⟨⟨argmaxList_isFirstArgmax _ hd_ne, ?_, ?_⟩, ?_⟩
  · intro he
    simp only [maximum_drawdown]
    rw [if_pos he]
  · intro he
    constructor
    · apply argmaxList_isFirstArgmax
      apply List.ne_nil_of_length_pos
      rw [List.length_take]
      have h1 : 0 < argmaxList (drawdownSeq vs) := Nat.pos_of_ne_zero he
      have h2 : 0 < vs.length := List.length_pos.mpr hne
      omega
    · simp only [maximum_drawdown]
      rw [if_neg he]
  · have h1 : drawdownSeq [(100 : ℚ), 150, 50] = [0, 0, 100] := by
      norm_num [drawdownSeq, runningMax, runningMaxAux, List.zipWith, max_def]
    have h2 : argmaxList [(0 : ℚ), 0, 100] = 2 := by
      norm_num [argmaxList, argmaxGo]
    have h3 : argmaxList [(100 : ℚ), 150] = 1 := by
      norm_num [argmaxList, argmaxGo]
    simp only [maximum_drawdown]
    rw [h1, h2, if_neg (by norm_num)]
    have h4 : ([(100 : ℚ), 150, 50].take 2) = [100, 150] := rfl
    rw [h4, h3]
    norm_num

theorem maximum_drawdown_spec_witness :
    isFirstArgmax (drawdownSeq [(100 : ℚ), 150, 50])
        (argmaxList (drawdownSeq [(100 : ℚ), 150, 50])) ∧
      maximum_drawdown [(100 : ℚ), 150, 50] = (50 - 150) / 150 := by
  have h := maximum_drawdown_spec [(100 : ℚ), 150, 50] (List.cons_ne_nil _ _)
  exact ⟨h.1.1, h.2⟩

/-- C8: on a non-empty sequence of strictly positive portfolio values,
`maximum_drawdown` is never strictly positive: either the argmax of the
running-max difference is `0` (result `0`), or the trough value is
strictly below the prefix peak, making the returned fraction negative. -/
theorem maximum_drawdown_nonpos (vs : List ℚ) (hne : vs ≠ [])
    (hpos : ∀ x ∈ vs, 0 < x) : maximum_drawdown vs ≤ 0 := by
  obtain ⟨v0, rest, rfl⟩ : ∃ v0 rest, vs = v0 :: rest := by
    cases vs with
    | nil => exact absurd rfl hne
    | cons a l => exact ⟨a, l, rfl⟩
  simp only [maximum_drawdown]
  by_cases he : argmaxList (drawdownSeq (v0 :: rest)) = 0
  · rw [if_pos he]
  · obtain ⟨e', he'⟩ : ∃ e', argmaxList (drawdownSeq (v0 :: rest)) = e' + 1 :=
      ⟨argmaxList (drawdownSeq (v0 :: rest)) - 1, by omega⟩
    rw [he', if_neg (Nat.succ_ne_zero e')]
    obtain ⟨helt, hmax, hstrict⟩ := argmaxList_isFirstArgmax (drawdownSeq (v0 :: rest))
      (List.ne_nil_of_length_pos (by rw [drawdownSeq_length]; simp))
    rw [he'] at helt hstrict
    have he_lt : e' + 1 < (v0 :: rest).length := by
      rw [← drawdownSeq_length]
      exact helt
    have he_rest : e' < rest.length := by
      simp only [List.length_cons] at he_lt
      omega
    have hd0 : (drawdownSeq (v0 :: rest)).getD 0 0 = 0 := by
      rw [drawdownSeq_getD _ 0 (by simp)]
      show (v0 :: runningMaxAux v0 rest).getD 0 0 - (v0 :: rest).getD 0 0 = 0
      rw [List.getD_cons_zero, List.getD_cons_zero, sub_self]
    have hde : 0 < (drawdownSeq (v0 :: rest)).getD (e' + 1) 0 := by
      have h := hstrict 0 (Nat.succ_pos e')
      rw [hd0] at h
      exact h
    have hrm : (v0 :: rest).getD (e' + 1) 0 < (runningMax (v0 :: rest)).getD (e' + 1) 0 := by
      rw [drawdownSeq_getD _ _ he_lt] at hde
      linarith
    have hgetD_e : (v0 :: rest).getD (e' + 1) 0 = rest.getD e' 0 := List.getD_cons_succ
    have hM : rest.getD e' 0 < (rest.take e').foldl max v0 := by
      rw [runningMax_getD_succ v0 rest e' he_rest, hgetD_e] at hrm
      rcases max_cases ((rest.take e').foldl max v0) (rest.getD e' 0) with ⟨hmx, _⟩ | ⟨hmx, _⟩
      · rw [hmx] at hrm
        exact hrm
      · rw [hmx] at hrm
        exact absurd hrm (lt_irrefl _)
    have htake : (v0 :: rest).take (e' + 1) = v0 :: rest.take e' := List.take_succ_cons
    rw [htake]
    obtain ⟨hblt, hbmax, _⟩ := argmaxList_isFirstArgmax (v0 :: rest.take e')
      (List.cons_ne_nil _ _)
    have hMle : (rest.take e').foldl max v0 ≤
        (v0 :: rest.take e').getD (argmaxList (v0 :: rest.take e')) 0 := by
      rcases foldl_max_cases (rest.take e') v0 with hc | ⟨j, hj, hc⟩
      · rw [hc]
        have h0 := hbmax 0 (by simp)
        rw [List.getD_cons_zero] at h0
        exact h0
      · rw [hc]
        have hj' := hbmax (j + 1) (by simp only [List.length_cons]; omega)
        rw [List.getD_cons_succ] at hj'
        exact hj'
    have hb_lt' : argmaxList (v0 :: rest.take e') < e' + 1 := by
      simp only [List.length_cons, List.length_take] at hblt
      omega
    have hb_lt_len : argmaxList (v0 :: rest.take e') < (v0 :: rest).length := by
      simp only [List.length_cons]
      omega
    have hPb0 : ∀ j, j < e' + 1 → (v0 :: rest.take e').getD j 0 = (v0 :: rest).getD j 0 := by
      intro j hj
      rw [← htake, List.getD_eq_getElem?_getD, List.getElem?_take_of_lt hj,
        List.getD_eq_getElem?_getD]
    have hPb : (v0 :: rest.take e').getD (argmaxList (v0 :: rest.take e')) 0 =
        (v0 :: rest).getD (argmaxList (v0 :: rest.take e')) 0 := hPb0 _ hb_lt'
    have hposb : 0 < (v0 :: rest).getD (argmaxList (v0 :: rest.take e')) 0 := by
      apply hpos
      apply List.getElem?_mem
      rw [List.getElem?_eq_getElem hb_lt_len, List.getD_eq_getElem?_getD,
        List.getElem?_eq_getElem hb_lt_len, Option.getD_some]
    have hnum : (v0 :: rest).getD (e' + 1) 0 -
        (v0 :: rest).getD (argmaxList (v0 :: rest.take e')) 0 ≤ 0 := by
      rw [hgetD_e]
      have h := lt_of_lt_of_le hM hMle
      rw [hPb] at h
      linarith
    exact div_nonpos_iff.mpr (Or.inr ⟨hnum, le_of_lt hposb⟩)

theorem maximum_drawdown_nonpos_witness : maximum_drawdown [(3 : ℚ), 1, 2] ≤ 0 :=
  maximum_drawdown_nonpos [(3 : ℚ), 1, 2] (List.cons_ne_nil _ _)
    (by norm_num)

/-! ### Sharpe ratio -/

theorem sum_const_list (l : List ℝ) (c : ℝ) (h : ∀ x ∈ l, x = c) :
    l.sum = l.length * c := by
  induction l with
  | nil => simp
  | cons x xs ih =>
    rw [List.sum_cons, ih fun y hy => h y (List.mem_cons_of_mem x hy),
      h x (List.mem_cons_self x xs), List.length_cons]
    push_cast
    ring

theorem npMean_const (l : List ℝ) (c : ℝ) (hne : l ≠ []) (h : ∀ x ∈ l, x = c) :
    npMean l = c := by
  unfold npMean
  rw [sum_const_list l c h]
  have hlen : (l.length : ℝ) ≠ 0 :=
    Nat.cast_ne_zero.mpr (Nat.pos_iff_ne_zero.mp (List.length_pos.mpr hne))
  field_simp

theorem npStd_const_zero (l : List ℝ) (c : ℝ) (hne : l ≠ []) (h : ∀ x ∈ l, x = c) :
    npStd l = 0 := by
  unfold npStd
  have hm := npMean_const l c hne h
  have hzero : ∀ y ∈ l.map fun x => (x - npMean l) ^ 2, y = 0 := by
    intro y hy
    obtain ⟨x, hx, rfl⟩ := List.mem_map.mp hy
    rw [h x hx, hm, sub_self]
    norm_num
  have hmapne : (l.map fun x => (x - npMean l) ^ 2) ≠ [] := by
    simpa using hne
  rw [npMean_const _ 0 hmapne hzero, Real.sqrt_zero]

/-- C2: `sharpe_ratio_custom` subtracts the daily risk-free rate
`(1 + 0.0275) ^ (1/365) - 1` from every return, returns exactly `0` when
the standard deviation or the mean of the excess returns is exactly zero,
and returns their quotient otherwise; in particular any all-equal return
sequence yields exactly `0` for any risk-free rate. -/
theorem sharpe_ratio_custom_spec (return_rates : List ℝ) (hne : return_rates ≠ []) :
    sharpe_ratio_custom return_rates =
      sharpeRatioWithRate ((1 + 2.75 / 100) ^ ((1 : ℝ) / 365) - 1) return_rates ∧
    ((npStd (excessReturns daily_treasury_bond_return_rate return_rates) = 0 ∨
        npMean (excessReturns daily_treasury_bond_return_rate return_rates) = 0) →
      sharpe_ratio_custom return_rates = 0) ∧
    (¬(npStd (excessReturns daily_treasury_bond_return_rate return_rates) = 0 ∨
        npMean (excessReturns daily_treasury_bond_return_rate return_rates) = 0) →
      sharpe_ratio_custom return_rates =
        npMean (excessReturns daily_treasury_bond_return_rate return_rates) /
          npStd (excessReturns daily_treasury_bond_return_rate return_rates)) ∧
    ∀ rate c : ℝ, (∀ x ∈ return_rates, x = c) →
      sharpeRatioWithRate rate return_rates = 0 := by
  refine ⟨rfl, ?_, ?_, ?_⟩
  · intro h
    simp only [sharpe_ratio_custom, sharpeRatioWithRate]
    rw [if_pos h]
  · intro h
    simp only [sharpe_ratio_custom, sharpeRatioWithRate]
    rw [if_neg h]
  · intro rate c hc
    have hex : ∀ y ∈ excessReturns rate return_rates, y = c - rate := by
      intro y hy
      obtain ⟨x, hx, rfl⟩ := List.mem_map.mp hy
      rw [hc x hx]
    have hexne : excessReturns rate return_rates ≠ [] := by
      unfold excessReturns
      simpa using hne
    have hstd : npStd (excessReturns rate return_rates) = 0 :=
      npStd_const_zero _ (c - rate) hexne hex
    simp only [sharpeRatioWithRate]
    rw [if_pos (Or.inl hstd)]

theorem sharpe_ratio_custom_spec_witness :
    sharpe_ratio_custom [(0.001 : ℝ), 0.001, 0.001] = 0 := by
  have h := sharpe_ratio_custom_spec [(0.001 : ℝ), 0.001, 0.001] (List.cons_ne_nil _ _)
  show sharpeRatioWithRate daily_treasury_bond_return_rate [(0.001 : ℝ), 0.001, 0.001] = 0
  refine h.2.2.2 daily_treasury_bond_return_rate 0.001 ?_
  intro x hx
  rcases List.mem_cons.mp hx with rfl | hx
  · rfl
  rcases List.mem_cons.mp hx with rfl | hx
  · rfl
  rcases List.mem_cons.mp hx with rfl | hx
  · rfl
  exact absurd hx (List.not_mem_nil x)
